/-
Verification development for the Auditory_Processing repository (`tools.py`).

The file shallowly embeds the three components the specification describes:
  * `prepare_stimuli`  — the time-lagged design-matrix builder,
  * `time_to_stimuli`  — the epoch interval resolver,
  * `save_results`     — the append-only trial result ledger,
and proves or refutes the specification's claims about them.

Python exceptions are modelled by `Except PyErr`; numpy float data is
modelled by `ℚ` (the builder only moves values and inserts zeros, it
performs no arithmetic on samples); Python strings are modelled by
`List Char`; Python list/array slicing (including clamping and negative
indices) is modelled explicitly.
-/
import Mathlib

namespace AuditoryProcessing

/-- The kinds of Python errors the embedded code can raise.
`indexError` models `IndexError` (out-of-range indexing),
`valueError` models `ValueError` (bad value: failed `int` parse,
`np.hstack` shape mismatch, explicit `raise ValueError`),
`preconditionError` models the explicit precondition-violation error the
specification mandates for the reimplementation; the source never raises it. -/
inductive PyErr
  | indexError
  | valueError
  | preconditionError
deriving DecidableEq, Repr

/-! ## Design-matrix builder: `prepare_stimuli` (tools.py lines 36-56) -/

/-- Python slice `l[lo:hi]` for nonnegative bounds (clamping semantics). -/
def pySlice (l : List ℚ) (lo hi : Nat) : List ℚ :=
  (l.drop lo).take (hi - lo)

/-- The iteration order of the nested loop `for i in range(m): for j in
range(d+1)` of `prepare_stimuli`: pairs `(i, j)`, `i` outer, `j` inner. -/
def pairList (m d : Nat) : List (Nat × Nat) :=
  (List.range m).flatMap fun i => (List.range (d + 1)).map fun j => (i, j)

/-- One step of the column-appending loop of `prepare_stimuli`: skip the
`(0,0)` pair, otherwise read channel `p.1` of the padded data (raising
`IndexError` past the end, as `stim_data[i]` does) and append the slice
`[d - j : L - j]` as a new column. -/
def addLagCol (padded : List (List ℚ)) (d L : Nat)
    (acc : Except PyErr (List (List ℚ))) (p : Nat × Nat) :
    Except PyErr (List (List ℚ)) :=
  match acc with
  | .error e => .error e
  | .ok cols =>
    if p = (0, 0) then .ok cols
    else
      match padded[p.1]? with
      | none => .error .indexError
      | some ch => .ok (cols ++ [pySlice ch (d - p.2) (L - p.2)])

/-- Model of `prepare_stimuli(stim_signal, interval, m, d)` (tools.py lines 36-56),
with the extracted stimulus slice passed directly as a list of channels
(`stim_signal.extract_epoch(...)[0]`).  The result is the design matrix as
its list of columns, left to right.

Faithful to the source:
  * `stim.take m` is the `[:m]` channel slice;
  * when `d > 0` the `np.hstack((np.zeros((m, d)), stim_data))` call
    prepends `d` zeros per channel, and raises `ValueError` when the row
    counts `m` and `stim_data.length` disagree (when `d = 0` no padding
    happens, which coincides with prepending zero zeros);
  * `length_stim` is the padded length of channel 0, and `stim_data[0]`
    raises `IndexError` on an empty slice;
  * the loop appends the columns in `pairList` order. -/
def prepare_stimuli (stim : List (List ℚ)) (m d : Nat) :
    Except PyErr (List (List ℚ)) :=
  let stim_data := stim.take m
  if 0 < d ∧ stim_data.length ≠ m then .error .valueError
  else
    let padded := stim_data.map fun ch => List.replicate d 0 ++ ch
    match padded with
    | [] => .error .indexError
    | ch0 :: _ =>
      let length_stim := ch0.length
      (pairList m d).foldl (addLagCol padded d length_stim)
        (.ok [pySlice ch0 d length_stim])

/-- The column the specification's claim associates to history depth `X`:
row `t` holds the channel value from `X` samples earlier (zero when
`t < X`).  Used to state the claims about lag columns. -/
def histCol (ch : List ℚ) (T X : Nat) : List ℚ :=
  (List.range T).map fun t => if t < X then 0 else ch.getD (t - X) 0

/-! ## Epoch interval resolver: `time_to_stimuli` (tools.py lines 155-171) -/

/-- Python float modulo `x % y` (sign of the divisor): `x - y * floor(x / y)`. -/
def pyMod (x y : ℚ) : ℚ := x - y * ⌊x / y⌋

/-- Python slice `l[lo:hi]` with full index resolution: negative indices
count from the end, and both bounds clamp to `[0, len(l)]`. -/
def pySliceI (l : List String) (lo hi : ℤ) : List String :=
  let n : ℤ := l.length
  let lo' : ℤ := if lo < 0 then max (n + lo) 0 else min lo n
  let hi' : ℤ := if hi < 0 then max (n + hi) 0 else min hi n
  (l.drop lo'.toNat).take (hi'.toNat - lo'.toNat)

/-- Model of `time_to_stimuli(signal, interval)` (tools.py lines 155-171).  The
ordered epoch-name list `epoch.epoch_names_matching(signal.epochs,
"^STIM_00")` is an external collaborator and is passed in directly as
`val_epochs`.  `math.floor(x / 1.5)` is `⌊x / (3/2)⌋`; the exact-boundary
test `interval[1] % 1.5 == 0.0` is `pyMod interval.2 (3/2) = 0`; the two
`raise ValueError` sites become `.error .valueError`. -/
def time_to_stimuli (val_epochs : List String) (interval : ℚ × ℚ) :
    Except PyErr (List String × ℤ × ℤ) :=
  if interval.1 < 0 then .error .valueError
  else
    let index : ℤ × ℤ := (⌊interval.1 / (3/2)⌋, ⌊interval.2 / (3/2)⌋)
    let n : ℤ := val_epochs.length
    if index.2 = n then .ok (pySliceI val_epochs index.1 n, index)
    else if index.2 > n - 1 then .error .valueError
    else if index.2 ≠ 0 ∧ pyMod interval.2 (3/2) = 0 then
      .ok (pySliceI val_epochs index.1 index.2, index)
    else .ok (pySliceI val_epochs index.1 (index.2 + 1), index)

/-! ## Trial result ledger: `result_text` / `save_results`
(tools.py lines 248-290) -/

/-- Shorthand: the character list of a string literal. -/
def cs (s : String) : List Char := s.data

/-- Model of `RecordingData` (tools.py lines 24-33).  The numpy arrays and floats
are only ever rendered into the ledger text, never computed with, so the
model carries their decimal renderings (`str(x)`) directly. -/
structure RecordingData where
  coefficients : List (List Char)
  intercepts : List (List Char)
  d : Nat
  m : Nat
  r2 : List Char
  mae : List Char
  mse : List Char
  function : List Char

/-- Base-10 digits of `n`, least significant first (`[]` for `0`), with
explicit fuel so that the definition is structural and kernel-evaluable. -/
def digitsAux (fuel n : Nat) : List Nat :=
  match fuel, n with
  | 0, _ => []
  | _ + 1, 0 => []
  | fuel + 1, n + 1 => ((n + 1) % 10) :: digitsAux fuel ((n + 1) / 10)

/-- Python `str(n)` for a natural number. -/
def pyNatStr (n : Nat) : List Char :=
  if n = 0 then ['0'] else ((digitsAux n n).map Nat.digitChar).reverse

/-- Model of `result_text(results, n)` (tools.py lines 248-264): the fixed-layout
trial block. -/
def result_text (results : RecordingData) (n : Nat) : List Char :=
  let coefficients := cs "[" ++ List.intercalate (cs ", ") results.coefficients ++ cs "]"
  let intercepts := cs "[" ++ List.intercalate (cs ", ") results.intercepts ++ cs "]"
  cs "Trial: n=" ++ pyNatStr n ++ cs ", m=" ++ pyNatStr results.m ++
    cs ", d=" ++ pyNatStr results.d ++ cs "\n" ++
  cs "Results:\n" ++
  cs "\tCoefficients: " ++ coefficients ++ cs "\n" ++
  cs "\tIntercepts: " ++ intercepts ++ cs "\n" ++
  cs "\tR2: " ++ results.r2 ++ cs "\n" ++
  cs "\tMSE: " ++ results.mse ++ cs "\n" ++
  cs "\tMAE: " ++ results.mae ++ cs "\n" ++
  cs "\tFunction: " ++ results.function ++ cs "\n"

/-- Python `int(s)` applied to the one-character string `s`. -/
def pyIntChar (c : Char) : Except PyErr Nat :=
  if '0' ≤ c ∧ c ≤ '9' then .ok (c.toNat - '0'.toNat) else .error .valueError

/-- Python `content.split("\n")[0]`: the first line (without its newline). -/
def line0 (content : List Char) : List Char := content.takeWhile (· ≠ '\n')

/-- Python `file.readlines()[0]`: the first line, keeping its newline when one exists. -/
def fullLine0 (content : List Char) : List Char :=
  content.takeWhile (· ≠ '\n') ++ (content.dropWhile (· ≠ '\n')).take 1

/-- Everything after the first line (the part `save_results` leaves untouched
when it rewrites the counter). -/
def restAfterLine0 (content : List Char) : List Char :=
  (content.dropWhile (· ≠ '\n')).drop 1

/-- Model of `save_results(results, file_path)` (tools.py lines 267-290), with the
file at `file_path` passed in as `content` (`open_file` yields `""` for a
missing file) and the new file content returned.

Faithful to the source:
  * non-empty content: `n_trial = int(prev_text[0][-1])` reads the LAST
    CHARACTER of the first line (`IndexError` on an empty first line,
    `ValueError` on a non-digit); the first line is then rewritten in place
    as `lines[0][0:-2] + str(n_trial + 1) + "\n"`, the rest kept verbatim;
  * then the block `result_text(results, n_trial + 1)` is appended, with a
    standalone `"N: 1"` header line first whenever `n_trial + 1 == 1`. -/
def save_results (results : RecordingData) (content : List Char) :
    Except PyErr (List Char) :=
  if content.length ≠ 0 then
    match (line0 content).getLast? with
    | none => .error .indexError
    | some c =>
      match pyIntChar c with
      | .error e => .error e
      | .ok n_trial =>
        let l0 := fullLine0 content
        let newL0 := l0.take (l0.length - 2) ++ pyNatStr (n_trial + 1) ++ cs "\n"
        let n := n_trial + 1
        .ok (newL0 ++ restAfterLine0 content ++
          (if n = 1 then cs "N: " ++ pyNatStr n ++ cs "\n" else []) ++
          result_text results n)
  else
    .ok (content ++ cs "N: " ++ pyNatStr 1 ++ cs "\n" ++ result_text results 1)

/-- One sequential call against the ledger: feed the current file content
to `save_results` (propagating an earlier failure). -/
def ledgerStep (acc : Except PyErr (List Char)) (r : RecordingData) :
    Except PyErr (List Char) :=
  match acc with
  | .error e => .error e
  | .ok c => save_results r c

/-- A sequence of sequential `save_results` calls against one ledger,
starting from a missing (empty) file. -/
def runLedger (rs : List RecordingData) : Except PyErr (List Char) :=
  rs.foldl ledgerStep (.ok [])

/-- The lines of the ledger file (split on newline, terminator style:
a trailing newline ends the last line and opens no empty one). -/
def ledgerLines (content : List Char) : List String :=
  match content with
  | [] => []
  | c :: rest =>
    match ledgerLines rest with
    | [] => if c = '\n' then [""] else [String.mk [c]]
    | l :: ls => if c = '\n' then "" :: l :: ls else String.mk (c :: l.data) :: ls

/-- Equality of embedded Python results is decidable (used to evaluate the
model at concrete inputs). -/
instance instDecEqExcept {ε α : Type} [DecidableEq ε] [DecidableEq α] :
    DecidableEq (Except ε α) := fun
  | .ok a, .ok b =>
    if h : a = b then .isTrue (by rw [h]) else .isFalse (by simp [h])
  | .ok _, .error _ => .isFalse (by simp)
  | .error _, .ok _ => .isFalse (by simp)
  | .error e, .error f =>
    if h : e = f then .isTrue (by rw [h]) else .isFalse (by simp [h])

/-- Whether an embedded Python call raised an exception. -/
def isErr {α : Type} : Except PyErr α → Bool
  | .error _ => true
  | .ok _ => false

/-- The column of the design matrix belonging to the (channel, lag) pair
`p = (i, j)`: channel `i`'s zero-padded series, sliced `[d - j : (d+T) - j]`
(`T` the unpadded sample count).  `prepare_stimuli` is proved to return
exactly these columns in `pairList` order. -/
def colOf (stim : List (List ℚ)) (d T : Nat) (p : Nat × Nat) : List ℚ :=
  pySlice (List.replicate d 0 ++ stim.getD p.1 []) (d - p.2) (d + T - p.2)

/-- Numeric value of a decimal digit character. -/
def digitVal (c : Char) : Nat := c.toNat - '0'.toNat

/-- The numeral denoted by a list of decimal digit characters. -/
def parseDigits (l : List Char) : Nat := l.foldl (fun a c => 10 * a + digitVal c) 0

/-- The trial counter `k` on the ledger's first line `"N: <k>"`. -/
def counterOf (content : List Char) : Nat := parseDigits ((line0 content).drop 3)

/-- The trial-block header lines (`"Trial: n=..."`) of the ledger file. -/
def trialHeaders (content : List Char) : List String :=
  (ledgerLines content).filter fun l => l.data.take 9 = cs "Trial: n="

/-- The trial number in a header line `"Trial: n=<k>, ..."`. -/
def headerNum (l : String) : Nat :=
  parseDigits ((l.data.drop 9).takeWhile Char.isDigit)

/-- The record's rendered fields contain no newline character (true of every
record the source ever builds: `str` of a numpy scalar has none, and the
function identifiers used are single-line). -/
def cleanRec (r : RecordingData) : Prop :=
  '\n' ∉ List.intercalate (cs ", ") r.coefficients ∧
    '\n' ∉ List.intercalate (cs ", ") r.intercepts ∧
    '\n' ∉ r.r2 ∧ '\n' ∉ r.mae ∧ '\n' ∉ r.mse ∧ '\n' ∉ r.function

/-- The successor of the ledger counter as `save_results` actually rewrites
it: the last character is parsed back to `v % 10` and re-printed as
`v % 10 + 1` in place of that character, so a last digit below `9` bumps
the numeral by one, while a last digit `9` turns into the two characters
`10` (e.g. `19 ↦ 110`). -/
def bumpCounter (v : Nat) : Nat :=
  if v % 10 ≤ 8 then v + 1 else (v / 10) * 100 + 10

/-- A concrete sample record (empty coefficient lists, single-line scalar
renderings), used to evaluate the ledger at concrete trial counts. -/
def rec0 : RecordingData :=
  ⟨[], [], 0, 0, cs "0", cs "0", cs "0", cs "f"⟩

/-! ## Lemmas about the design-matrix builder -/

lemma mem_pairList {m d : Nat} {p : Nat × Nat} :
    p ∈ pairList m d ↔ p.1 < m ∧ p.2 < d + 1 := by
  constructor
  · intro hp
    rcases List.mem_flatMap.1 hp with ⟨i, hi, hp⟩
    rcases List.mem_map.1 hp with ⟨j, hj, rfl⟩
    exact ⟨List.mem_range.1 hi, List.mem_range.1 hj⟩
  · rintro ⟨h1, h2⟩
    exact List.mem_flatMap.2 ⟨p.1, List.mem_range.2 h1,
      List.mem_map.2 ⟨p.2, List.mem_range.2 h2, rfl⟩⟩

lemma pairList_succ (m d : Nat) :
    pairList (m + 1) d =
      pairList m d ++ (List.range (d + 1)).map fun j => (m, j) := by
  simp [pairList, List.range_succ]

lemma length_pairList (m d : Nat) : (pairList m d).length = m * (d + 1) := by
  induction m with
  | zero => simp [pairList]
  | succ m ih =>
    rw [pairList_succ, List.length_append, ih, List.length_map,
      List.length_range]
    ring

lemma pairList_getD {m d : Nat} (i j : Nat) (hi : i < m) (hj : j < d + 1) :
    (pairList m d).getD (i * (d + 1) + j) (0, 0) = (i, j) := by
  induction m with
  | zero => omega
  | succ m ih =>
    rw [pairList_succ]
    rcases Nat.lt_or_ge i m with h | h
    · rw [List.getD_append]
      · exact ih h
      · rw [length_pairList]
        calc i * (d + 1) + j < i * (d + 1) + (d + 1) := by omega
          _ = (i + 1) * (d + 1) := by ring
          _ ≤ m * (d + 1) := Nat.mul_le_mul_right _ (by omega)
    · have him : i = m := by omega
      subst him
      rw [List.getD_eq_getElem?_getD, List.getElem?_append_right
        (by rw [length_pairList]; exact Nat.le_add_right _ _)]
      rw [length_pairList, Nat.add_sub_cancel_left, List.getElem?_map,
        List.getElem?_range hj]
      rfl

lemma foldl_addLagCol (padded : List (List ℚ)) (d L : Nat) :
    ∀ (ps : List (Nat × Nat)) (init : List (List ℚ)),
      (∀ p ∈ ps, p.1 < padded.length) → (0, 0) ∉ ps →
      ps.foldl (addLagCol padded d L) (.ok init) =
        .ok (init ++ ps.map fun p =>
          pySlice (padded.getD p.1 []) (d - p.2) (L - p.2)) := by
  intro ps
  induction ps with
  | nil => simp
  | cons p ps ih =>
    intro init hlt hmem
    have hp : p.1 < padded.length := hlt p (.head _)
    have hne : p ≠ (0, 0) := by rintro rfl; exact hmem (.head _)
    have hsome : padded[p.1]? = some padded[p.1] := List.getElem?_eq_getElem hp
    have hstep : addLagCol padded d L (.ok init) p =
        .ok (init ++ [pySlice (padded.getD p.1 []) (d - p.2) (L - p.2)]) := by
      rw [addLagCol, if_neg hne, hsome, List.getD_eq_getElem?_getD, hsome]
      rfl
    rw [List.foldl_cons, hstep,
      ih _ (fun q hq => hlt q (.tail _ hq)) (fun hq => hmem (.tail _ hq))]
    simp

lemma pairList_eq_cons {m d : Nat} (hm : 0 < m) :
    ∃ tl, pairList m d = (0, 0) :: tl ∧ (0, 0) ∉ tl := by
  have hlen : 0 < (pairList m d).length := by
    rw [length_pairList]; exact Nat.mul_pos hm (Nat.succ_pos d)
  obtain ⟨p, tl, heq⟩ : ∃ p tl, pairList m d = p :: tl := by
    cases h : pairList m d with
    | nil => rw [h] at hlen; simp at hlen
    | cons a l => exact ⟨a, l, rfl⟩
  have hp : p = (0, 0) := by
    have h0 := pairList_getD (m := m) (d := d) 0 0 hm (Nat.succ_pos d)
    simpa [heq] using h0
  have hnodup : (pairList m d).Nodup := by
    have hprod : pairList m d = (List.range m).product (List.range (d + 1)) := by
      simp [pairList, List.product]
    rw [hprod]
    exact List.Nodup.product (List.nodup_range _) (List.nodup_range _)
  subst hp
  rw [heq] at hnodup
  exact ⟨tl, heq, (List.nodup_cons.1 hnodup).1⟩

lemma padded_getD {stim : List (List ℚ)} {m d i : Nat}
    (hi : i < m) (hlen : m ≤ stim.length) :
    ((stim.take m).map fun ch => List.replicate d 0 ++ ch).getD i [] =
      List.replicate d 0 ++ stim.getD i [] := by
  have h1 : i < stim.length := lt_of_lt_of_le hi hlen
  rw [List.getD_eq_getElem?_getD, List.getElem?_map, List.getElem?_take,
    if_pos hi, List.getElem?_eq_getElem h1, List.getD_eq_getElem?_getD,
    List.getElem?_eq_getElem h1]
  rfl

/-- Closed form of the builder on well-formed input: one column per
`(channel, lag)` pair, in `pairList` order. -/
lemma prepare_stimuli_eq_ok {stim : List (List ℚ)} {T : Nat} {m d : Nat}
    (hm : 0 < m) (hlen : m ≤ stim.length) (hT : ∀ ch ∈ stim, ch.length = T) :
    prepare_stimuli stim m d = .ok ((pairList m d).map (colOf stim d T)) := by
  obtain ⟨s0, stim', rfl⟩ : ∃ s0 stim', stim = s0 :: stim' := by
    cases stim with
    | nil => simp at hlen; omega
    | cons a l => exact ⟨a, l, rfl⟩
  obtain ⟨m', rfl⟩ : ∃ m', m = m' + 1 := ⟨m - 1, by omega⟩
  have hlen' : m' ≤ stim'.length := by
    simp only [List.length_cons] at hlen; omega
  have hs0 : s0.length = T := hT s0 (List.mem_cons_self _ _)
  have hgoal : List.foldl
      (addLagCol ((List.replicate d 0 ++ s0) ::
        (stim'.take m').map fun ch => List.replicate d 0 ++ ch) d
        (List.replicate d (0 : ℚ) ++ s0).length)
      (.ok [pySlice (List.replicate d 0 ++ s0) d
        (List.replicate d (0 : ℚ) ++ s0).length])
      (pairList (m' + 1) d) =
      .ok ((pairList (m' + 1) d).map (colOf (s0 :: stim') d T)) := by
    set P : List (List ℚ) := (List.replicate d 0 ++ s0) ::
      (stim'.take m').map fun ch => List.replicate d 0 ++ ch with hP
    have hL : (List.replicate d (0 : ℚ) ++ s0).length = d + T := by simp [hs0]
    have hPlen : P.length = m' + 1 := by
      simp [hP, List.length_take]
      omega
    have hPget : ∀ i, i < m' + 1 →
        P.getD i [] = List.replicate d 0 ++ (s0 :: stim').getD i [] := by
      intro i hi
      cases i with
      | zero => rfl
      | succ k =>
        have hk : k < m' := by omega
        have := @padded_getD stim' m' d k hk hlen'
        simpa [hP] using this
    obtain ⟨tl, htl, hntl⟩ :=
      pairList_eq_cons (m := m' + 1) (d := d) (Nat.succ_pos m')
    rw [hL, htl, List.foldl_cons]
    have hstep : addLagCol P d (d + T)
        (.ok [pySlice (List.replicate d 0 ++ s0) d (d + T)]) (0, 0) =
        .ok [pySlice (List.replicate d 0 ++ s0) d (d + T)] := by
      simp [addLagCol]
    rw [hstep, foldl_addLagCol P d (d + T) tl _
      (fun p hp => by
        have hpm : p.1 < m' + 1 :=
          (mem_pairList.1 (by rw [htl]; exact List.mem_cons_of_mem _ hp)).1
        rw [hPlen]; exact hpm)
      hntl, List.singleton_append]
    have hhead : pySlice (List.replicate d 0 ++ s0) d (d + T) =
        colOf (s0 :: stim') d T (0, 0) := by
      simp [colOf]
    have htail : (tl.map fun p =>
        pySlice (P.getD p.1 []) (d - p.2) (d + T - p.2)) =
        tl.map (colOf (s0 :: stim') d T) := by
      refine List.map_congr_left fun p hp => ?_
      have hpm : p.1 < m' + 1 :=
        (mem_pairList.1 (by rw [htl]; exact List.mem_cons_of_mem _ hp)).1
      rw [colOf, hPget p.1 hpm]
    rw [List.map_cons, ← hhead, htail]
  simp only [prepare_stimuli, List.take_succ_cons, List.map_cons]
  rw [if_neg (by simp [List.length_take]; omega)]
  exact hgoal

lemma pairList_zero (m : Nat) :
    pairList m 0 = (List.range m).map fun i => (i, 0) := by
  induction m with
  | zero => rfl
  | succ k ih =>
    rw [pairList_succ, ih]
    simp [List.range_succ]

lemma stim_getD_length {stim : List (List ℚ)} {T i : Nat}
    (hi : i < stim.length) (hT : ∀ ch ∈ stim, ch.length = T) :
    (stim.getD i []).length = T := by
  rw [List.getD_eq_getElem?_getD, List.getElem?_eq_getElem hi]
  exact hT _ (List.getElem_mem _)

lemma colOf_length {stim : List (List ℚ)} {T d : Nat} {p : Nat × Nat}
    (hp2 : p.2 < d + 1) (hch : (stim.getD p.1 []).length = T) :
    (colOf stim d T p).length = T := by
  rcases p with ⟨i, j⟩
  simp only [colOf, pySlice, List.length_take, List.length_drop,
    List.length_append, List.length_replicate, hch] at *
  omega

lemma colOf_getD {stim : List (List ℚ)} {T d i j t : Nat}
    (hj : j < d + 1) (ht : t < T) (hch : (stim.getD i []).length = T) :
    (colOf stim d T (i, j)).getD t 0 =
      if j ≤ t then (stim.getD i []).getD (t - j) 0 else 0 := by
  rw [colOf, pySlice, List.getD_eq_getElem?_getD, List.getElem?_take,
    if_pos (by omega), List.getElem?_drop, List.getElem?_append]
  simp only [List.length_replicate]
  by_cases hjt : j ≤ t
  · rw [if_neg (by omega), if_pos hjt]
    have he : d - j + t - d = t - j := by omega
    rw [he, ← List.getD_eq_getElem?_getD]
  · rw [if_pos (by omega), if_neg hjt, List.getElem?_replicate,
      if_pos (by omega)]
    rfl

lemma map_colOf_getD {stim : List (List ℚ)} {m d T i j : Nat}
    (hi : i < m) (hj : j < d + 1) :
    ((pairList m d).map (colOf stim d T)).getD (i * (d + 1) + j) [] =
      colOf stim d T (i, j) := by
  have hidx : i * (d + 1) + j < (pairList m d).length := by
    rw [length_pairList]
    calc i * (d + 1) + j < i * (d + 1) + (d + 1) := by omega
      _ = (i + 1) * (d + 1) := by ring
      _ ≤ m * (d + 1) := Nat.mul_le_mul_right _ (by omega)
  have hpl := pairList_getD i j hi hj
  rw [List.getD_eq_getElem?_getD, List.getElem?_eq_getElem hidx] at hpl
  rw [List.getD_eq_getElem?_getD, List.getElem?_map,
    List.getElem?_eq_getElem hidx]
  simp only [Option.map_some', Option.getD_some] at hpl ⊢
  rw [hpl]

lemma map_getD_range {α : Type} (l : List α) (dflt : α) (m : Nat)
    (h : m ≤ l.length) :
    (List.range m).map (fun i => l.getD i dflt) = l.take m := by
  apply List.ext_getElem?
  intro n
  by_cases hn : n < m
  · rw [List.getElem?_map, List.getElem?_range hn, List.getElem?_take,
      if_pos hn, Option.map_some', List.getD_eq_getElem?_getD,
      List.getElem?_eq_getElem (by omega : n < l.length), Option.getD_some]
  · rw [List.getElem?_map,
      List.getElem?_eq_none (by simpa using Nat.le_of_not_lt hn),
      List.getElem?_take, if_neg hn]
    rfl

/-- C1: for every stimulus slice with at least `m ≥ 1` channels of `T`
samples each, and every `d ≥ 0`, `prepare_stimuli` returns a matrix with one
column per (channel `i`, lag `j`) pair, `0 ≤ i < m`, `0 ≤ j ≤ d`, ordered
`(0,0)` first and then lexicographically (`i` outer, `j` inner, the `(0,0)`
duplicate skipped): column `i*(d+1)+j` holds at row `t` channel `i`'s value
at time `t - j`, zero when `t - j < 0`; column `0` is the raw unlagged
channel-0 trace (and rows `t < j` of every lag-`j` column are zero, by the
entry formula). -/
theorem C1_design_matrix_columns (stim : List (List ℚ)) (T m d : Nat)
    (hm : 0 < m) (hlen : m ≤ stim.length) (hT : ∀ ch ∈ stim, ch.length = T) :
    ∃ M, prepare_stimuli stim m d = .ok M ∧
      M.length = m * (d + 1) ∧
      (∀ i < m, ∀ j < d + 1, ∀ t < T,
        (M.getD (i * (d + 1) + j) []).getD t 0 =
          if j ≤ t then (stim.getD i []).getD (t - j) 0 else 0) ∧
      M.getD 0 [] = stim.getD 0 [] := by
  refine ⟨_, prepare_stimuli_eq_ok hm hlen hT, ?_, ?_, ?_⟩
  · rw [List.length_map, length_pairList]
  · intro i hi j hj t ht
    rw [map_colOf_getD hi hj]
    exact colOf_getD hj ht (stim_getD_length (lt_of_lt_of_le hi hlen) hT)
  · have h0 := @map_colOf_getD stim m d T 0 0 hm (Nat.succ_pos d)
    simp only [Nat.zero_mul, Nat.add_zero] at h0
    rw [h0, colOf]
    have hch0 : (stim.getD 0 []).length = T :=
      stim_getD_length (lt_of_lt_of_le hm hlen) hT
    simp only [Nat.sub_zero, pySlice]
    rw [List.drop_left' (List.length_replicate d 0)]
    rw [Nat.add_sub_cancel_left, List.take_of_length_le (le_of_eq hch0)]

/-- C4: for every stimulus slice with at least `m ≥ 1` channels of `T`
samples each and every `d ≥ 0`, the design matrix has exactly `T` rows (the
original unpadded sample count) and exactly `m * (d + 1)` columns; for
`d = 0` it degenerates to the first `m` channels transposed, with no extra
columns. -/
theorem C4_design_matrix_shape (stim : List (List ℚ)) (T m d : Nat)
    (hm : 0 < m) (hlen : m ≤ stim.length) (hT : ∀ ch ∈ stim, ch.length = T) :
    ∃ M, prepare_stimuli stim m d = .ok M ∧
      M.length = m * (d + 1) ∧ (∀ col ∈ M, col.length = T) ∧
      (d = 0 → M = stim.take m) := by
  refine ⟨_, prepare_stimuli_eq_ok hm hlen hT, ?_, ?_, ?_⟩
  · rw [List.length_map, length_pairList]
  · intro col hcol
    rcases List.mem_map.1 hcol with ⟨p, hp, rfl⟩
    rcases mem_pairList.1 hp with ⟨h1, h2⟩
    exact colOf_length h2 (stim_getD_length (lt_of_lt_of_le h1 hlen) hT)
  · rintro rfl
    rw [pairList_zero, List.map_map]
    have hcol : ∀ i ∈ List.range m,
        (colOf stim 0 T ∘ fun i => (i, 0)) i = stim.getD i [] := by
      intro i hi
      have hil : i < stim.length :=
        lt_of_lt_of_le (List.mem_range.1 hi) hlen
      have hch : (stim.getD i []).length = T := stim_getD_length hil hT
      simp only [Function.comp, colOf, pySlice, List.replicate_zero,
        List.nil_append, Nat.sub_zero, Nat.zero_add, List.drop_zero]
      rw [List.take_of_length_le (le_of_eq hch)]
    rw [List.map_congr_left hcol, map_getD_range _ _ _ hlen]

/-- Witness for C1 at the slice `[[1,2],[3,4]]`, `m = 2`, `d = 1`. -/
theorem C1_design_matrix_columns_witness :
    ∃ M, prepare_stimuli [[1, 2], [3, 4]] 2 1 = .ok M ∧
      M.length = 2 * (1 + 1) ∧
      (∀ i < 2, ∀ j < 1 + 1, ∀ t < 2,
        (M.getD (i * (1 + 1) + j) []).getD t 0 =
          if j ≤ t then ([[(1 : ℚ), 2], [3, 4]].getD i []).getD (t - j) 0
          else 0) ∧
      M.getD 0 [] = [[(1 : ℚ), 2], [3, 4]].getD 0 [] :=
  C1_design_matrix_columns [[1, 2], [3, 4]] 2 2 1 (by decide) (by decide)
    (by decide)

/-- Witness for C4 at the slice `[[1,2],[3,4]]`, `m = 2`, `d = 1`. -/
theorem C4_design_matrix_shape_witness :
    ∃ M, prepare_stimuli [[1, 2], [3, 4]] 2 1 = .ok M ∧
      M.length = 2 * (1 + 1) ∧ (∀ col ∈ M, col.length = 2) ∧
      (1 = 0 → M = [[(1 : ℚ), 2], [3, 4]].take 2) :=
  C4_design_matrix_shape [[1, 2], [3, 4]] 2 2 1 (by decide) (by decide)
    (by decide)

lemma getElem?_eq_some_getD {α : Type} (l : List α) (dflt : α) (t : Nat)
    (h : t < l.length) : l[t]? = some (l.getD t dflt) := by
  rw [List.getD_eq_getElem?_getD, List.getElem?_eq_getElem h]
  rfl

lemma histCol_getD {ch : List ℚ} {T X t : Nat} (ht : t < T) :
    (histCol ch T X).getD t 0 = if t < X then 0 else ch.getD (t - X) 0 := by
  rw [histCol, List.getD_eq_getElem?_getD, List.getElem?_map,
    List.getElem?_range ht]
  rfl

lemma colOf_eq_histCol {stim : List (List ℚ)} {T d i j : Nat}
    (hj : j < d + 1) (hch : (stim.getD i []).length = T) :
    colOf stim d T (i, j) = histCol (stim.getD i []) T j := by
  have hl1 : (colOf stim d T (i, j)).length = T := colOf_length hj hch
  have hl2 : (histCol (stim.getD i []) T j).length = T := by simp [histCol]
  apply List.ext_getElem?
  intro t
  by_cases ht : t < T
  · have h1 := getElem?_eq_some_getD (colOf stim d T (i, j)) 0 t (by omega)
    have h2 := getElem?_eq_some_getD (histCol (stim.getD i []) T j) 0 t
      (by omega)
    rw [h1, h2, colOf_getD hj ht hch, histCol_getD ht]
    by_cases hjt : j ≤ t
    · rw [if_pos hjt, if_neg (by omega)]
    · rw [if_neg hjt, if_pos (by omega)]
  · rw [List.getElem?_eq_none (by omega), List.getElem?_eq_none (by omega)]

/-- C5 counterexample: at the slice `[[1,2]]` with `m = 1`, `d = 1`, the
appended lag column for `(i,j) = (0,1)` is `[0,1]` — row `t` holds the value
from `j = 1` sample earlier — while a column holding the value from
`d + j = 2` samples earlier (what the claim states) would be
`histCol [1,2] 2 2 = [0,0]`. -/
theorem C5_counterexample :
    prepare_stimuli [[1, 2]] 1 1 = .ok [[1, 2], [0, 1]] ∧
      histCol [(1 : ℚ), 2] 2 (1 + 1) = [0, 0] ∧
      [(0 : ℚ), 1] ≠ [0, 0] :=
  ⟨by rfl, by rfl, by decide⟩

/-- C5 amended: for every channel `i < m` and lag `j ≤ d` other than
`(0,0)`, the appended column is channel `i`'s padded series sliced from
position `d - j` through `L - j` (`L = d + T` the padded length), and in
that column the value from `j` samples earlier than the current row maps to
the current row (zero when the row index is below `j`), with larger `j`
meaning older history. -/
theorem C5_lag_columns (stim : List (List ℚ)) (T m d : Nat)
    (hm : 0 < m) (hlen : m ≤ stim.length) (hT : ∀ ch ∈ stim, ch.length = T) :
    ∃ M, prepare_stimuli stim m d = .ok M ∧
      ∀ i < m, ∀ j < d + 1, ¬(i = 0 ∧ j = 0) →
        M.getD (i * (d + 1) + j) [] =
          pySlice (List.replicate d 0 ++ stim.getD i []) (d - j) (d + T - j) ∧
        M.getD (i * (d + 1) + j) [] = histCol (stim.getD i []) T j := by
  refine ⟨_, prepare_stimuli_eq_ok hm hlen hT, ?_⟩
  intro i hi j hj _
  have hch : (stim.getD i []).length = T :=
    stim_getD_length (lt_of_lt_of_le hi hlen) hT
  refine ⟨?_, ?_⟩
  · rw [map_colOf_getD hi hj]
    rfl
  · rw [map_colOf_getD hi hj, colOf_eq_histCol hj hch]

/-- Witness for C5's amended theorem at `[[1,2],[3,4]]`, `m = 2`, `d = 1`. -/
theorem C5_lag_columns_witness :
    ∃ M, prepare_stimuli [[1, 2], [3, 4]] 2 1 = .ok M ∧
      ∀ i < 2, ∀ j < 1 + 1, ¬(i = 0 ∧ j = 0) →
        M.getD (i * (1 + 1) + j) [] =
          pySlice (List.replicate 1 0 ++ [[(1 : ℚ), 2], [3, 4]].getD i [])
            (1 - j) (1 + 2 - j) ∧
        M.getD (i * (1 + 1) + j) [] =
          histCol ([[(1 : ℚ), 2], [3, 4]].getD i []) 2 j :=
  C5_lag_columns [[1, 2], [3, 4]] 2 2 1 (by decide) (by decide) (by decide)

lemma foldl_addLagCol_error (padded : List (List ℚ)) (d L : Nat)
    (ps : List (Nat × Nat)) (e : PyErr) :
    ps.foldl (addLagCol padded d L) (.error e) = .error e := by
  induction ps with
  | nil => rfl
  | cons p ps ih => rw [List.foldl_cons]; exact ih

lemma foldl_addLagCol_ok (padded : List (List ℚ)) (d L : Nat) :
    ∀ (ps : List (Nat × Nat)) (init : List (List ℚ)),
      (∀ p ∈ ps, p.1 < padded.length) →
      ∃ cols, ps.foldl (addLagCol padded d L) (.ok init) = .ok cols := by
  intro ps
  induction ps with
  | nil => exact fun init _ => ⟨init, rfl⟩
  | cons p ps ih =>
    intro init hlt
    have hp : p.1 < padded.length := hlt p (.head _)
    have hsome : padded[p.1]? = some padded[p.1] := List.getElem?_eq_getElem hp
    rw [List.foldl_cons]
    by_cases hz : p = (0, 0)
    · rw [show addLagCol padded d L (.ok init) p = .ok init by
        rw [addLagCol, if_pos hz]]
      exact ih init fun q hq => hlt q (.tail _ hq)
    · rw [show addLagCol padded d L (.ok init) p =
          .ok (init ++ [pySlice (padded[p.1]) (d - p.2) (L - p.2)]) by
        rw [addLagCol, if_neg hz, hsome]]
      exact ih _ fun q hq => hlt q (.tail _ hq)

/-- C7 counterexample: for the single-channel slice `[[1,2]]` with `m = 2`
channels requested and `d = 0`, `prepare_stimuli` fails with the implicit
`IndexError` raised by `stim_data[1]`, not with the explicit
precondition-violation error the claim requires. -/
theorem C7_counterexample :
    prepare_stimuli [[1, 2]] 2 0 = .error .indexError ∧
      (Except.error PyErr.indexError :
        Except PyErr (List (List ℚ))) ≠ .error .preconditionError :=
  ⟨by rfl, by decide⟩

/-- C7 amended: a slice with fewer than `m` channels is never silently
truncated — the call always fails — but implicitly rather than through an
explicit precondition check: with the `np.hstack` shape-mismatch
`ValueError` when `d > 0`, and with the out-of-range `IndexError` of
`stim_data[i]` when `d = 0`. -/
theorem C7_missing_channels_fail (stim : List (List ℚ)) (m d : Nat)
    (hlt : stim.length < m) :
    prepare_stimuli stim m d =
      .error (if 0 < d then .valueError else .indexError) := by
  have htake : stim.take m = stim := List.take_of_length_le (le_of_lt hlt)
  by_cases hd : 0 < d
  · rw [prepare_stimuli]
    rw [if_pos ⟨hd, by rw [htake]; omega⟩, if_pos hd]
  · have hd0 : d = 0 := by omega
    subst hd0
    rw [if_neg (by omega)]
    cases hstim : stim with
    | nil =>
      subst hstim
      rw [prepare_stimuli, if_neg (by simp), htake]
      rfl
    | cons s0 rest =>
      subst hstim
      simp only [prepare_stimuli, htake]
      rw [if_neg (by simp)]
      simp only [List.map_cons, List.replicate_zero, List.nil_append,
        List.map_id']
      set c : Nat := (s0 :: rest).length with hc
      have hcm : c < m := hlt
      have hsplit : List.range m = List.range c ++
          (List.range (m - c)).map fun x => c + x := by
        rw [← List.range_add]
        congr 1
        omega
      rw [pairList_zero, hsplit, List.map_append, List.foldl_append]
      obtain ⟨cols, hcols⟩ := foldl_addLagCol_ok (s0 :: rest) 0 s0.length
        ((List.range c).map fun i => (i, 0))
        [pySlice s0 0 s0.length]
        (by
          intro p hp
          rcases List.mem_map.1 hp with ⟨i, hi, rfl⟩
          rw [← hc]
          exact List.mem_range.1 hi)
      rw [hcols]
      obtain ⟨k, hk⟩ : ∃ k, m - c = k + 1 := ⟨m - c - 1, by omega⟩
      rw [hk, List.range_succ_eq_map, List.map_cons, List.map_cons,
        List.foldl_cons]
      have hcz : ((c + 0 : Nat), (0 : Nat)) ≠ ((0 : Nat), (0 : Nat)) := by
        have h0c : 0 < c := by rw [hc]; simp
        simp only [ne_eq, Prod.mk.injEq]
        omega
      have hnone : (s0 :: rest)[c + 0]? = none := by
        apply List.getElem?_eq_none
        rw [← hc]
        omega
      have hstep2 : addLagCol (s0 :: rest) 0 s0.length (Except.ok cols)
          (c + 0, 0) = Except.error PyErr.indexError := by
        rw [addLagCol, if_neg hcz, hnone]
      rw [hstep2, foldl_addLagCol_error]

/-- Witness for C7's amended theorem: one channel supplied, two requested. -/
theorem C7_missing_channels_fail_witness :
    prepare_stimuli [[(1 : ℚ), 2]] 2 0 =
      .error (if 0 < 0 then .valueError else .indexError) :=
  C7_missing_channels_fail [[1, 2]] 2 0 (by decide)

/-! ## Lemmas about the epoch interval resolver -/

lemma pyMod_eq_zero_iff (e : ℚ) :
    pyMod e (3/2) = 0 ↔ ∃ k : ℤ, e = k * (3/2) := by
  rw [pyMod]
  constructor
  · intro h
    exact ⟨⌊e / (3/2)⌋, by linarith⟩
  · rintro ⟨k, rfl⟩
    have h32 : ((k : ℚ) * (3/2)) / (3/2) = (k : ℚ) := by
      field_simp
    rw [h32, Int.floor_intCast]
    ring

lemma pySliceI_nonneg (l : List String) (lo hi : ℤ)
    (hlo : 0 ≤ lo) (hhi : 0 ≤ hi) :
    pySliceI l lo hi = (l.drop lo.toNat).take (hi.toNat - lo.toNat) := by
  simp only [pySliceI]
  rw [if_neg (by omega), if_neg (by omega)]
  rcases le_or_lt (l.length : ℤ) lo with hn | hn
  · rw [min_eq_right hn]
    rw [Int.toNat_natCast, List.drop_length, List.drop_eq_nil_of_le (by omega)]
    simp
  · rw [min_eq_left (le_of_lt hn)]
    rcases le_or_lt hi (l.length : ℤ) with hh | hh
    · rw [min_eq_left hh]
    · rw [min_eq_right (le_of_lt hh)]
      rw [List.take_of_length_le (by rw [List.length_drop]; omega),
        List.take_of_length_le (by rw [List.length_drop]; omega)]

lemma pySliceI_tail (l : List String) (lo : ℤ) (hlo : 0 ≤ lo) :
    pySliceI l lo l.length = l.drop lo.toNat := by
  rw [pySliceI_nonneg _ _ _ hlo (by omega)]
  apply List.take_of_length_le
  rw [List.length_drop]
  omega

/-- The four-way branch policy of `time_to_stimuli`, for a well-formed
interval (`0 ≤ start ≤ end`), with the returned slices in half-open
`drop`/`take` form. -/
lemma time_to_stimuli_policy (epochs : List String) (s e : ℚ)
    (h0 : 0 ≤ s) (hse : s ≤ e) :
    ((⌊e / (3/2)⌋ = (epochs.length : ℤ)) →
      time_to_stimuli epochs (s, e) =
        .ok (epochs.drop ⌊s / (3/2)⌋.toNat, ⌊s / (3/2)⌋, ⌊e / (3/2)⌋)) ∧
    (⌊e / (3/2)⌋ ≠ (epochs.length : ℤ) →
      ⌊e / (3/2)⌋ > (epochs.length : ℤ) - 1 →
      time_to_stimuli epochs (s, e) = .error .valueError) ∧
    (⌊e / (3/2)⌋ ≠ (epochs.length : ℤ) →
      ⌊e / (3/2)⌋ ≤ (epochs.length : ℤ) - 1 →
      ⌊e / (3/2)⌋ ≠ 0 → (∃ k : ℤ, e = k * (3/2)) →
      time_to_stimuli epochs (s, e) =
        .ok ((epochs.drop ⌊s / (3/2)⌋.toNat).take
            (⌊e / (3/2)⌋.toNat - ⌊s / (3/2)⌋.toNat),
          ⌊s / (3/2)⌋, ⌊e / (3/2)⌋)) ∧
    (⌊e / (3/2)⌋ ≠ (epochs.length : ℤ) →
      ⌊e / (3/2)⌋ ≤ (epochs.length : ℤ) - 1 →
      (⌊e / (3/2)⌋ = 0 ∨ ¬∃ k : ℤ, e = k * (3/2)) →
      time_to_stimuli epochs (s, e) =
        .ok ((epochs.drop ⌊s / (3/2)⌋.toNat).take
            ((⌊e / (3/2)⌋ + 1).toNat - ⌊s / (3/2)⌋.toNat),
          ⌊s / (3/2)⌋, ⌊e / (3/2)⌋)) := by
  have hi0 : 0 ≤ ⌊s / (3/2)⌋ := Int.floor_nonneg.2 (by positivity)
  have hi01 : ⌊s / (3/2)⌋ ≤ ⌊e / (3/2)⌋ :=
    Int.floor_le_floor ((div_le_div_iff_of_pos_right (by norm_num)).2 hse)
  refine ⟨?_, ?_, ?_, ?_⟩
  · intro h1
    dsimp only [time_to_stimuli]
    rw [if_neg (not_lt.2 h0), if_pos h1, pySliceI_tail _ _ hi0]
  · intro h1 h2
    dsimp only [time_to_stimuli]
    rw [if_neg (not_lt.2 h0), if_neg h1, if_pos h2]
  · intro h1 h2 h3 h4
    dsimp only [time_to_stimuli]
    rw [if_neg (not_lt.2 h0), if_neg h1, if_neg (not_lt.2 h2),
      if_pos ⟨h3, (pyMod_eq_zero_iff e).2 h4⟩,
      pySliceI_nonneg _ _ _ hi0 (by omega)]
  · intro h1 h2 h3
    dsimp only [time_to_stimuli]
    rw [if_neg (not_lt.2 h0), if_neg h1, if_neg (not_lt.2 h2),
      if_neg (by
        rintro ⟨hne, hmod⟩
        rcases h3 with h3 | h3
        · exact hne h3
        · exact h3 ((pyMod_eq_zero_iff e).1 hmod)),
      pySliceI_nonneg _ _ _ hi0 (by omega)]

/-- C2: for every epoch list and every well-formed interval
(`0 ≤ start ≤ end`, the spec's Interval invariant), `time_to_stimuli`
computes `startIndex = ⌊start/1.5⌋`, `endIndex = ⌊end/1.5⌋` and returns by
exactly the four-way policy: `endIndex = count` gives the open-ended tail
`epochs[startIndex:]`; else `endIndex > count − 1` errors; else
`endIndex ≠ 0` with `end` an exact multiple of `1.5` gives the half-open
`epochs[startIndex:endIndex]` (boundary epoch excluded); otherwise
`epochs[startIndex:endIndex+1]`.  In particular `(0.0, 3.0)` with ≥ 2
matching epochs yields index pair `(0, 2)` and names `epochs[0:2]`
(excluding the epoch starting at `3.0` when it exists), and `(0.0, 2.0)`
yields `epochs[0:2]` with index pair `(0, 1)`. -/
theorem C2_epoch_resolution (epochs : List String) (s e : ℚ)
    (h0 : 0 ≤ s) (hse : s ≤ e) :
    (((⌊e / (3/2)⌋ = (epochs.length : ℤ)) →
      time_to_stimuli epochs (s, e) =
        .ok (epochs.drop ⌊s / (3/2)⌋.toNat, ⌊s / (3/2)⌋, ⌊e / (3/2)⌋)) ∧
    (⌊e / (3/2)⌋ ≠ (epochs.length : ℤ) →
      ⌊e / (3/2)⌋ > (epochs.length : ℤ) - 1 →
      time_to_stimuli epochs (s, e) = .error .valueError) ∧
    (⌊e / (3/2)⌋ ≠ (epochs.length : ℤ) →
      ⌊e / (3/2)⌋ ≤ (epochs.length : ℤ) - 1 →
      ⌊e / (3/2)⌋ ≠ 0 → (∃ k : ℤ, e = k * (3/2)) →
      time_to_stimuli epochs (s, e) =
        .ok ((epochs.drop ⌊s / (3/2)⌋.toNat).take
            (⌊e / (3/2)⌋.toNat - ⌊s / (3/2)⌋.toNat),
          ⌊s / (3/2)⌋, ⌊e / (3/2)⌋)) ∧
    (⌊e / (3/2)⌋ ≠ (epochs.length : ℤ) →
      ⌊e / (3/2)⌋ ≤ (epochs.length : ℤ) - 1 →
      (⌊e / (3/2)⌋ = 0 ∨ ¬∃ k : ℤ, e = k * (3/2)) →
      time_to_stimuli epochs (s, e) =
        .ok ((epochs.drop ⌊s / (3/2)⌋.toNat).take
            ((⌊e / (3/2)⌋ + 1).toNat - ⌊s / (3/2)⌋.toNat),
          ⌊s / (3/2)⌋, ⌊e / (3/2)⌋))) ∧
    (∀ eps : List String, 2 ≤ eps.length →
      time_to_stimuli eps (0, 3) = .ok (eps.take 2, 0, 2)) ∧
    (∀ eps : List String, 2 ≤ eps.length →
      time_to_stimuli eps (0, 2) = .ok (eps.take 2, 0, 1)) := by
  have hf0 : ⌊(0 : ℚ) / (3/2)⌋ = 0 := by norm_num
  have hf3 : ⌊(3 : ℚ) / (3/2)⌋ = 2 := by norm_num
  have hf2 : ⌊(2 : ℚ) / (3/2)⌋ = 1 := by norm_num
  refine ⟨time_to_stimuli_policy epochs s e h0 hse, ?_, ?_⟩
  · intro eps hlen
    have hpol := time_to_stimuli_policy eps 0 3 (by norm_num) (by norm_num)
    by_cases hn : (eps.length : ℤ) = 2
    · have h := hpol.1 (by rw [hf3, hn])
      rw [hf3, hf0] at h
      rw [h, List.take_of_length_le (by omega)]
      rfl
    · have h := hpol.2.2.1 (by rw [hf3]; omega) (by rw [hf3]; omega)
        (by rw [hf3]; omega) ⟨2, by norm_num⟩
      rw [hf3, hf0] at h
      simpa using h
  · intro eps hlen
    have hpol := time_to_stimuli_policy eps 0 2 (by norm_num) (by norm_num)
    have hnomul : ¬∃ k : ℤ, (2 : ℚ) = k * (3/2) := by
      rintro ⟨k, hk⟩
      have h3k : (3 : ℚ) * k = 4 := by linarith
      have h3k' : (3 : ℤ) * k = 4 := by exact_mod_cast h3k
      omega
    have h := hpol.2.2.2 (by rw [hf2]; omega) (by rw [hf2]; omega)
      (Or.inr hnomul)
    rw [hf2, hf0] at h
    simpa using h

/-- Witness for C2 at the epoch list `["a","b","c"]`, intervals `(0,3)` and
`(0,2)`. -/
theorem C2_epoch_resolution_witness :
    time_to_stimuli ["a", "b", "c"] (0, 3) =
      .ok (["a", "b", "c"].take 2, 0, 2) ∧
    time_to_stimuli ["a", "b", "c"] (0, 2) =
      .ok (["a", "b", "c"].take 2, 0, 1) := by
  have h := C2_epoch_resolution [] 0 0 (le_refl 0) (le_refl 0)
  exact ⟨h.2.1 ["a", "b", "c"] (by decide), h.2.2 ["a", "b", "c"] (by decide)⟩

/-- C6: `time_to_stimuli` raises its out-of-range `ValueError` exactly when
either the interval start is negative, or the computed end index exceeds
`count − 1` while not being equal to `count`; in every other case it
returns normally.  In particular `(-1, 5)` always fails. -/
theorem C6_resolver_error_iff (epochs : List String) (s e : ℚ) :
    (isErr (time_to_stimuli epochs (s, e)) = true ↔
      s < 0 ∨ (⌊e / (3/2)⌋ > (epochs.length : ℤ) - 1 ∧
        ⌊e / (3/2)⌋ ≠ (epochs.length : ℤ))) ∧
    time_to_stimuli epochs (-1, 5) = .error .valueError := by
  constructor
  · dsimp only [time_to_stimuli]
    split_ifs with h1 h2 h3 h4
    · simp [isErr, h1]
    · simp [isErr, h1, h2]
    · simp [isErr, h1, h2, h3]
    · simp [isErr, h1, h3]
    · simp [isErr, h1, h3]
  · dsimp only [time_to_stimuli]
    rw [if_pos (by norm_num)]

/-- C10 counterexample: the interval `(0, -2)` against two epochs has
start `0 ≥ 0`, end index `⌊-2/1.5⌋ = -2` which is at most `count - 1 = 1`
and below the start index `0` — the claim's hypotheses — yet the call
returns the NON-empty name list `["a"]` (Python's negative slice bound
wraps: `epochs[0:-1]`), not the empty sequence the claim states. -/
theorem C10_counterexample :
    ⌊(0 : ℚ) / (3/2)⌋ = 0 ∧ ⌊(-2 : ℚ) / (3/2)⌋ = -2 ∧
    (-2 : ℤ) ≤ ((["a", "b"] : List String).length : ℤ) - 1 ∧
    (-2 : ℤ) < 0 ∧
    time_to_stimuli ["a", "b"] (0, -2) = .ok (["a"], 0, -2) ∧
    (["a"] : List String) ≠ [] := by
  have hf0 : ⌊(0 : ℚ) / (3/2)⌋ = 0 := by norm_num
  have hfm2 : ⌊(-2 : ℚ) / (3/2)⌋ = -2 := by norm_num
  refine ⟨hf0, hfm2, by norm_num, by norm_num, ?_, by simp⟩
  dsimp only [time_to_stimuli]
  rw [if_neg (by norm_num), hf0, hfm2]
  rw [if_neg (by norm_num), if_neg (by norm_num),
    if_neg (by
      rintro ⟨-, hmod⟩
      rw [pyMod, hfm2] at hmod
      norm_num at hmod)]
  norm_num [pySliceI]

/-- C10 amended: for every interval with `start ≥ 0` whose computed end
index is nonnegative, at most `count - 1` and strictly below the computed
start index, `time_to_stimuli` raises no error and returns the empty
epoch-name sequence together with the computed index pair.  (For a negative
end index the call still raises no error, but Python's negative slice
bounds wrap and can return a non-empty prefix.) -/
theorem C10_empty_range (epochs : List String) (s e : ℚ)
    (h0 : 0 ≤ s) (hnn : 0 ≤ ⌊e / (3/2)⌋)
    (hle : ⌊e / (3/2)⌋ ≤ (epochs.length : ℤ) - 1)
    (hlt : ⌊e / (3/2)⌋ < ⌊s / (3/2)⌋) :
    time_to_stimuli epochs (s, e) =
      .ok ([], ⌊s / (3/2)⌋, ⌊e / (3/2)⌋) := by
  have hi0 : 0 ≤ ⌊s / (3/2)⌋ := Int.floor_nonneg.2 (by positivity)
  dsimp only [time_to_stimuli]
  rw [if_neg (not_lt.2 h0), if_neg (by omega), if_neg (by omega)]
  by_cases hc : ⌊e / (3/2)⌋ ≠ 0 ∧ pyMod e (3/2) = 0
  · rw [if_pos hc, pySliceI_nonneg _ _ _ hi0 hnn,
      Nat.sub_eq_zero_of_le (by omega), List.take_zero]
  · rw [if_neg hc, pySliceI_nonneg _ _ _ hi0 (by omega),
      Nat.sub_eq_zero_of_le (by omega), List.take_zero]

/-- Witness for C10's amended theorem: interval `(3, 0)` (start past end)
against two epochs returns the empty list with index pair `(2, 0)`. -/
theorem C10_empty_range_witness :
    time_to_stimuli ["a", "b"] (3, 0) =
      .ok ([], ⌊(3 : ℚ) / (3/2)⌋, ⌊(0 : ℚ) / (3/2)⌋) :=
  C10_empty_range ["a", "b"] 3 0 (by norm_num) (by norm_num)
    (by norm_num) (by norm_num)

/-! ## Lemmas about the trial result ledger -/

lemma digitsAux_eq (fuel : Nat) : ∀ n, n ≤ fuel →
    digitsAux fuel n = Nat.digits 10 n := by
  induction fuel with
  | zero =>
    intro n hn
    have hn0 : n = 0 := by omega
    subst hn0
    rw [show digitsAux 0 0 = [] from rfl]
    simp
  | succ fuel ih =>
    intro n hn
    cases n with
    | zero =>
      rw [show digitsAux (fuel + 1) 0 = [] from rfl]
      simp
    | succ k =>
      have hstep : digitsAux (fuel + 1) (k + 1) =
          ((k + 1) % 10) :: digitsAux fuel ((k + 1) / 10) := rfl
      have hdiv : (k + 1) / 10 ≤ fuel := by
        have := Nat.div_lt_self (Nat.succ_pos k) (by norm_num : 1 < 10)
        omega
      rw [hstep, ih _ hdiv,
        Nat.digits_def' (by norm_num : (1:ℕ) < 10) (Nat.succ_pos k)]

lemma pyNatStr_eq {n : Nat} (h : 0 < n) :
    pyNatStr n = ((Nat.digits 10 n).map Nat.digitChar).reverse := by
  rw [pyNatStr, if_neg (by omega), digitsAux_eq n n le_rfl]

lemma digitChar_facts : ∀ d, d < 10 →
    ('0' ≤ Nat.digitChar d ∧ Nat.digitChar d ≤ '9') ∧
      (Nat.digitChar d).toNat - '0'.toNat = d ∧
      (Nat.digitChar d).isDigit = true := by decide

lemma isDigit_ne_newline {c : Char} (h : c.isDigit = true) : c ≠ '\n' := by
  rintro rfl
  exact absurd h (by decide)

lemma pyNatStr_isDigit (n : Nat) : ∀ c ∈ pyNatStr n, c.isDigit = true := by
  by_cases hn : n = 0
  · subst hn
    decide
  · rw [pyNatStr_eq (by omega)]
    intro c hc
    rw [List.mem_reverse] at hc
    rcases List.mem_map.1 hc with ⟨d, hd, rfl⟩
    exact (digitChar_facts d (Nat.digits_lt_base (by norm_num) hd)).2.2

lemma pyNatStr_ne_nil (n : Nat) (h : 0 < n) : pyNatStr n ≠ [] := by
  rw [pyNatStr_eq h]
  simp only [ne_eq, List.reverse_eq_nil_iff, List.map_eq_nil_iff]
  exact Nat.digits_ne_nil_iff_ne_zero.2 (by omega)

lemma pyNatStr_getLast? (n : Nat) (h : 0 < n) :
    (pyNatStr n).getLast? = some (Nat.digitChar (n % 10)) := by
  rw [pyNatStr_eq h, Nat.digits_def' (by norm_num : (1:ℕ) < 10) h,
    List.map_cons, List.reverse_cons, List.getLast?_concat]

lemma pyNatStr_dropLast (n : Nat) (h : 0 < n) :
    (pyNatStr n).dropLast = ((Nat.digits 10 (n / 10)).map Nat.digitChar).reverse := by
  rw [pyNatStr_eq h, Nat.digits_def' (by norm_num : (1:ℕ) < 10) h,
    List.map_cons, List.reverse_cons, List.dropLast_concat]

lemma parseDigits_aux (ds : List Nat) : ∀ a : Nat, (∀ d ∈ ds, d < 10) →
    ((ds.map Nat.digitChar).reverse).foldl
        (fun acc c => 10 * acc + digitVal c) a =
      a * 10 ^ ds.length + Nat.ofDigits 10 ds := by
  induction ds with
  | nil =>
    intro a _
    simp [Nat.ofDigits]
  | cons d ds ih =>
    intro a hd
    rw [List.map_cons, List.reverse_cons, List.foldl_concat,
      ih a (fun x hx => hd x (.tail _ hx))]
    have hdv : digitVal (Nat.digitChar d) = d := by
      rw [digitVal]
      exact (digitChar_facts d (hd d (.head _))).2.1
    show 10 * (a * 10 ^ ds.length + Nat.ofDigits 10 ds) +
        digitVal (Nat.digitChar d) = _
    rw [hdv, Nat.ofDigits_cons, List.length_cons]
    ring

lemma parseDigits_pyNatStr (v : Nat) : parseDigits (pyNatStr v) = v := by
  by_cases hv : v = 0
  · subst hv
    rfl
  · rw [pyNatStr_eq (by omega), parseDigits,
      parseDigits_aux _ 0 (fun d hd => Nat.digits_lt_base (by norm_num) hd)]
    simp [Nat.ofDigits_digits]

lemma takeWhile_prefix_eq {p : Char → Bool} (l1 : List Char) {c : Char}
    (l2 : List Char) (h1 : ∀ x ∈ l1, p x = true) (hc : p c = false) :
    (l1 ++ c :: l2).takeWhile p = l1 := by
  induction l1 with
  | nil => simp [List.takeWhile_cons, hc]
  | cons a l1 ih =>
    rw [List.cons_append, List.takeWhile_cons, h1 a (.head _), if_pos rfl,
      ih fun x hx => h1 x (.tail _ hx)]

lemma dropWhile_prefix_eq {p : Char → Bool} (l1 : List Char) {c : Char}
    (l2 : List Char) (h1 : ∀ x ∈ l1, p x = true) (hc : p c = false) :
    (l1 ++ c :: l2).dropWhile p = c :: l2 := by
  induction l1 with
  | nil => simp [List.dropWhile_cons, hc]
  | cons a l1 ih =>
    rw [List.cons_append, List.dropWhile_cons, h1 a (.head _), if_pos rfl]
    exact ih fun x hx => h1 x (.tail _ hx)

lemma ledgerLines_append (x : List Char) (rest : List Char)
    (hx : '\n' ∉ x) :
    ledgerLines (x ++ '\n' :: rest) = String.mk x :: ledgerLines rest := by
  induction x with
  | nil =>
    rw [List.nil_append, ledgerLines]
    cases h : ledgerLines rest with
    | nil => rfl
    | cons l ls => rfl
  | cons c x ih =>
    have hc : c ≠ '\n' := fun hc => hx (hc ▸ List.mem_cons_self c x)
    have hx' : '\n' ∉ x := fun h => hx (List.mem_cons_of_mem c h)
    rw [List.cons_append, ledgerLines, ih hx']
    simp [hc]

lemma pyNatStr_bump (v : Nat) (hv : 0 < v) :
    (pyNatStr v).dropLast ++ pyNatStr (v % 10 + 1) =
      pyNatStr (bumpCounter v) := by
  by_cases h8 : v % 10 ≤ 8
  · rw [bumpCounter, if_pos h8]
    have hd : Nat.digits 10 (v + 1) = (v % 10 + 1) :: Nat.digits 10 (v / 10) := by
      rw [Nat.digits_def' (by norm_num : (1:ℕ) < 10) (by omega)]
      have e1 : (v + 1) % 10 = v % 10 + 1 := by omega
      have e2 : (v + 1) / 10 = v / 10 := by omega
      rw [e1, e2]
    have hsingle : pyNatStr (v % 10 + 1) = [Nat.digitChar (v % 10 + 1)] := by
      rw [pyNatStr_eq (by omega),
        Nat.digits_def' (by norm_num : (1:ℕ) < 10) (by omega)]
      have e3 : (v % 10 + 1) % 10 = v % 10 + 1 := by omega
      have e4 : (v % 10 + 1) / 10 = 0 := by omega
      rw [e3, e4]
      simp
    rw [pyNatStr_dropLast v hv, hsingle, pyNatStr_eq (by omega), hd,
      List.map_cons, List.reverse_cons]
  · have h9 : v % 10 = 9 := by omega
    rw [bumpCounter, if_neg h8]
    have hpos : 0 < (v / 10) * 100 + 10 := by omega
    have hd : Nat.digits 10 ((v / 10) * 100 + 10) =
        0 :: 1 :: Nat.digits 10 (v / 10) := by
      rw [Nat.digits_def' (by norm_num : (1:ℕ) < 10) hpos]
      have e1 : ((v / 10) * 100 + 10) % 10 = 0 := by omega
      have e2 : ((v / 10) * 100 + 10) / 10 = 10 * (v / 10) + 1 := by omega
      rw [e1, e2, Nat.digits_def' (by norm_num : (1:ℕ) < 10) (by omega)]
      have e3 : (10 * (v / 10) + 1) % 10 = 1 := by omega
      have e4 : (10 * (v / 10) + 1) / 10 = v / 10 := by omega
      rw [e3, e4]
    have h10 : pyNatStr (v % 10 + 1) = [Nat.digitChar 1, Nat.digitChar 0] := by
      rw [h9]
      rfl
    rw [pyNatStr_dropLast v hv, h10, pyNatStr_eq hpos, hd, List.map_cons,
      List.map_cons, List.reverse_cons, List.reverse_cons, List.append_assoc]
    rfl

lemma bumpCounter_gt (v : Nat) : v < bumpCounter v := by
  rw [bumpCounter]
  split_ifs with h
  · omega
  · omega

lemma char_mem_prefix_ne_newline {x : Char} {v : Nat}
    (hx : x ∈ cs "N: " ++ pyNatStr v) : x ≠ '\n' := by
  rcases List.mem_append.1 hx with h | h
  · have h' : x ∈ ['N', ':', ' '] := h
    fin_cases h' <;> decide
  · exact isDigit_ne_newline (pyNatStr_isDigit v x h)

lemma save_results_step (r : RecordingData) (v : Nat) (hv : 0 < v)
    (rest : List Char) :
    save_results r ((cs "N: " ++ pyNatStr v) ++ '\n' :: rest) =
      .ok ((cs "N: " ++ pyNatStr (bumpCounter v)) ++ '\n' ::
        (rest ++
          ((if v % 10 + 1 = 1 then
              cs "N: " ++ pyNatStr (v % 10 + 1) ++ cs "\n" else []) ++
            result_text r (v % 10 + 1)))) := by
  have hd10 : v % 10 < 10 := Nat.mod_lt v (by norm_num)
  have hptrue : ∀ x ∈ cs "N: " ++ pyNatStr v,
      (fun c => decide (c ≠ '\n')) x = true := fun x hx =>
    decide_eq_true (char_mem_prefix_ne_newline hx)
  have hpfalse : (fun c => decide (c ≠ '\n')) '\n' = false := by decide
  have hline0 : line0 ((cs "N: " ++ pyNatStr v) ++ '\n' :: rest) =
      cs "N: " ++ pyNatStr v := by
    rw [line0, takeWhile_prefix_eq _ rest hptrue hpfalse]
  have hlast : (cs "N: " ++ pyNatStr v).getLast? =
      some (Nat.digitChar (v % 10)) := by
    rw [List.getLast?_append, pyNatStr_getLast? v hv]
    rfl
  have hint : pyIntChar (Nat.digitChar (v % 10)) = .ok (v % 10) := by
    rw [pyIntChar, if_pos (digitChar_facts _ hd10).1]
    rw [(digitChar_facts _ hd10).2.1]
  have hfull : fullLine0 ((cs "N: " ++ pyNatStr v) ++ '\n' :: rest) =
      (cs "N: " ++ pyNatStr v) ++ ['\n'] := by
    rw [fullLine0, takeWhile_prefix_eq _ rest hptrue hpfalse,
      dropWhile_prefix_eq _ rest hptrue hpfalse]
    rfl
  have hrest : restAfterLine0 ((cs "N: " ++ pyNatStr v) ++ '\n' :: rest) =
      rest := by
    rw [restAfterLine0, dropWhile_prefix_eq _ rest hptrue hpfalse]
    rfl
  have hLlen : 1 ≤ (pyNatStr v).length :=
    List.length_pos.2 (pyNatStr_ne_nil v hv)
  have htake : ((cs "N: " ++ pyNatStr v) ++ ['\n']).take
      (((cs "N: " ++ pyNatStr v) ++ ['\n']).length - 2) =
      cs "N: " ++ (pyNatStr v).dropLast := by
    have hxlen : ((cs "N: " ++ pyNatStr v) ++ ['\n']).length - 2 =
        (cs "N: " ++ pyNatStr v).length - 1 := by
      simp only [List.length_append, List.length_cons, List.length_nil]
      omega
    have h0 : (cs "N: " ++ pyNatStr v).length - 1 -
        (cs "N: " ++ pyNatStr v).length = 0 := by omega
    rw [hxlen, List.take_append_eq_append_take, h0, List.take_zero,
      List.append_nil, ← List.dropLast_eq_take,
      List.dropLast_append_of_ne_nil _ (pyNatStr_ne_nil v hv)]
  rw [save_results,
    if_pos (by simp : ¬((cs "N: " ++ pyNatStr v) ++ '\n' :: rest).length = 0),
    hline0, hlast]
  dsimp only
  rw [hint]
  dsimp only
  rw [hfull, hrest, htake]
  rw [show cs "N: " ++ (pyNatStr v).dropLast ++ pyNatStr (v % 10 + 1) =
      cs "N: " ++ ((pyNatStr v).dropLast ++ pyNatStr (v % 10 + 1)) from
    by rw [List.append_assoc], pyNatStr_bump v hv]
  simp [cs, List.append_assoc]

lemma save_results_empty (r : RecordingData) :
    save_results r [] =
      .ok ((cs "N: " ++ pyNatStr 1) ++ '\n' :: result_text r 1) := by
  rw [save_results, if_neg (by simp)]
  simp [cs, List.append_assoc]

lemma line0_counter (v : Nat) (rest : List Char) :
    line0 ((cs "N: " ++ pyNatStr v) ++ '\n' :: rest) =
      cs "N: " ++ pyNatStr v := by
  rw [line0, takeWhile_prefix_eq _ rest
    (fun x hx => decide_eq_true (char_mem_prefix_ne_newline hx)) (by decide)]

lemma restAfterLine0_counter (v : Nat) (rest : List Char) :
    restAfterLine0 ((cs "N: " ++ pyNatStr v) ++ '\n' :: rest) = rest := by
  rw [restAfterLine0, dropWhile_prefix_eq _ rest
    (fun x hx => decide_eq_true (char_mem_prefix_ne_newline hx)) (by decide)]
  rfl

lemma counterOf_counter (v : Nat) (rest : List Char) :
    counterOf ((cs "N: " ++ pyNatStr v) ++ '\n' :: rest) = v := by
  rw [counterOf, line0_counter,
    List.drop_left' (by decide : (cs "N: ").length = 3),
    parseDigits_pyNatStr]

lemma save_results_step_small (r : RecordingData) (v : Nat)
    (hv : 0 < v) (h8 : v ≤ 8) (rest : List Char) :
    save_results r ((cs "N: " ++ pyNatStr v) ++ '\n' :: rest) =
      .ok ((cs "N: " ++ pyNatStr (v + 1)) ++ '\n' ::
        (rest ++ result_text r (v + 1))) := by
  rw [save_results_step r v hv rest]
  have hb : bumpCounter v = v + 1 := by
    rw [bumpCounter, if_pos (by omega)]
  have hmod : v % 10 + 1 = v + 1 := by omega
  rw [hb, hmod, if_neg (by omega), List.nil_append]

lemma runLedger_loop (rs : List RecordingData) :
    ∀ (v : Nat) (rest : List Char), 0 < v →
      ∃ v' rest', 0 < v' ∧
        rs.foldl ledgerStep
          (.ok ((cs "N: " ++ pyNatStr v) ++ '\n' :: rest)) =
          .ok ((cs "N: " ++ pyNatStr v') ++ '\n' :: rest') := by
  induction rs with
  | nil => exact fun v rest hv => ⟨v, rest, hv, rfl⟩
  | cons r rs ih =>
    intro v rest hv
    rw [List.foldl_cons,
      show ledgerStep (.ok ((cs "N: " ++ pyNatStr v) ++ '\n' :: rest)) r =
        save_results r ((cs "N: " ++ pyNatStr v) ++ '\n' :: rest) from rfl,
      save_results_step r v hv rest]
    exact ih (bumpCounter v) _ (by have := bumpCounter_gt v; omega)

lemma runLedger_shape (rs : List RecordingData) (hne : rs ≠ []) :
    ∃ v rest, 0 < v ∧
      runLedger rs = .ok ((cs "N: " ++ pyNatStr v) ++ '\n' :: rest) := by
  cases rs with
  | nil => cases hne rfl
  | cons r rs =>
    rw [runLedger, List.foldl_cons,
      show ledgerStep (.ok []) r = save_results r [] from rfl,
      save_results_empty]
    obtain ⟨v', rest', hv', heq⟩ :=
      runLedger_loop rs 1 (result_text r 1) one_pos
    exact ⟨v', rest', hv', heq⟩

/-- C9: across every sequence of successful `save_results` calls against
one ledger (single writer, from a missing or empty file), the counter `k`
on the first line `"N: <k>"` strictly increases with each call, the first
line always has that `"N: <k>"` shape, and everything after the first line
is only ever appended to, never mutated. -/
theorem C9_counter_monotone (rs : List RecordingData) (r : RecordingData)
    (hne : rs ≠ []) (F F' : List Char)
    (hF : runLedger rs = .ok F) (hF' : runLedger (rs ++ [r]) = .ok F') :
    counterOf F < counterOf F' ∧
    line0 F = cs "N: " ++ pyNatStr (counterOf F) ∧
    line0 F' = cs "N: " ++ pyNatStr (counterOf F') ∧
    ∃ app, restAfterLine0 F' = restAfterLine0 F ++ app := by
  obtain ⟨v, rest, hv, heq⟩ := runLedger_shape rs hne
  rw [hF] at heq
  have hFeq : F = (cs "N: " ++ pyNatStr v) ++ '\n' :: rest :=
    Except.ok.inj heq
  have hstep : runLedger (rs ++ [r]) = save_results r F := by
    rw [runLedger, List.foldl_concat, ← runLedger, hF]
    rfl
  rw [hF', hFeq, save_results_step r v hv rest] at hstep
  have hF'eq : F' = (cs "N: " ++ pyNatStr (bumpCounter v)) ++ '\n' ::
      (rest ++ ((if v % 10 + 1 = 1 then
        cs "N: " ++ pyNatStr (v % 10 + 1) ++ cs "\n" else []) ++
        result_text r (v % 10 + 1))) :=
    Except.ok.inj hstep
  rw [hFeq, hF'eq, counterOf_counter, counterOf_counter,
    line0_counter, line0_counter, restAfterLine0_counter,
    restAfterLine0_counter]
  exact ⟨bumpCounter_gt v, rfl, rfl, _, rfl⟩

/-- Witness for C9: one append (counter 1) followed by a second; the
counter strictly increases and the first block is preserved verbatim. -/
theorem C9_counter_monotone_witness :
    ∃ F F', runLedger [rec0] = .ok F ∧ runLedger [rec0, rec0] = .ok F' ∧
      (counterOf F < counterOf F' ∧
       line0 F = cs "N: " ++ pyNatStr (counterOf F) ∧
       line0 F' = cs "N: " ++ pyNatStr (counterOf F') ∧
       ∃ app, restAfterLine0 F' = restAfterLine0 F ++ app) := by
  refine ⟨_, _, rfl, rfl, ?_⟩
  exact C9_counter_monotone [rec0] rec0 (by simp) _ _ rfl rfl

lemma not_mem_append {a : Char} {l1 l2 : List Char}
    (h1 : a ∉ l1) (h2 : a ∉ l2) : a ∉ l1 ++ l2 :=
  fun h => (List.mem_append.1 h).elim h1 h2

lemma pyNatStr_not_newline (n : Nat) : '\n' ∉ pyNatStr n :=
  fun h => isDigit_ne_newline (pyNatStr_isDigit n _ h) rfl

lemma ledgerLines_result_text (r : RecordingData) (n : Nat) (hc : cleanRec r)
    (rest : List Char) :
    ledgerLines (result_text r n ++ rest) =
      String.mk (cs "Trial: n=" ++ pyNatStr n ++ cs ", m=" ++ pyNatStr r.m ++
        cs ", d=" ++ pyNatStr r.d) ::
      String.mk (cs "Results:") ::
      String.mk (cs "\tCoefficients: " ++ cs "[" ++
        List.intercalate (cs ", ") r.coefficients ++ cs "]") ::
      String.mk (cs "\tIntercepts: " ++ cs "[" ++
        List.intercalate (cs ", ") r.intercepts ++ cs "]") ::
      String.mk (cs "\tR2: " ++ r.r2) ::
      String.mk (cs "\tMSE: " ++ r.mse) ::
      String.mk (cs "\tMAE: " ++ r.mae) ::
      String.mk (cs "\tFunction: " ++ r.function) :: ledgerLines rest := by
  obtain ⟨hc1, hc2, hc3, hc4, hc5, hc6⟩ := hc
  rw [result_text]
  simp only [List.append_assoc]
  simp only [show ∀ X : List Char, cs "\n" ++ X = '\n' :: X from fun _ => rfl,
    show ∀ X : List Char, cs "Results:\n" ++ X = cs "Results:" ++ '\n' :: X
      from fun _ => rfl]
  simp only [← List.append_assoc]
  rw [ledgerLines_append _ _
      (not_mem_append (not_mem_append (not_mem_append (not_mem_append
        (not_mem_append (by decide) (pyNatStr_not_newline n)) (by decide))
        (pyNatStr_not_newline r.m)) (by decide)) (pyNatStr_not_newline r.d)),
    ledgerLines_append _ _ (by decide),
    ledgerLines_append _ _
      (not_mem_append (not_mem_append (not_mem_append (by decide) (by decide))
        hc1) (by decide)),
    ledgerLines_append _ _
      (not_mem_append (not_mem_append (not_mem_append (by decide) (by decide))
        hc2) (by decide)),
    ledgerLines_append _ _ (not_mem_append (by decide) hc3),
    ledgerLines_append _ _ (not_mem_append (by decide) hc5),
    ledgerLines_append _ _ (not_mem_append (by decide) hc4),
    ledgerLines_append _ _ (not_mem_append (by decide) hc6)]

lemma take9_header (X : List Char) :
    (cs "Trial: n=" ++ X).take 9 = cs "Trial: n=" := by
  rw [List.take_append_eq_append_take,
    show (cs "Trial: n=").take 9 = cs "Trial: n=" from by decide,
    show 9 - (cs "Trial: n=").length = 0 from by decide, List.take_zero,
    List.append_nil]

lemma headerPred_head_ne {c : Char} (hc : c ≠ 'T') (X : List Char) :
    ¬((c :: X).take 9 = cs "Trial: n=") := by
  intro h
  have h0 := congrArg List.head? h
  rw [show ((c :: X).take 9).head? = some c from rfl,
    show (cs "Trial: n=").head? = some 'T' from rfl] at h0
  exact hc (Option.some.inj h0)

lemma headerPred_ne (s : String) (c : Char) (Y : List Char)
    (hs : s.data = c :: Y) (hc : c ≠ 'T') (X : List Char) :
    (decide (List.take 9 (cs s ++ X) = cs "Trial: n=")) = false := by
  apply decide_eq_false
  rw [cs, hs, List.cons_append]
  exact headerPred_head_ne hc _

lemma headerNum_eval (k : Nat) (X : List Char) :
    headerNum (String.mk (cs "Trial: n=" ++ (pyNatStr k ++ (cs ", m=" ++ X)))) =
      k := by
  rw [headerNum,
    show (String.mk (cs "Trial: n=" ++ (pyNatStr k ++ (cs ", m=" ++ X)))).data =
      cs "Trial: n=" ++ (pyNatStr k ++ (cs ", m=" ++ X)) from rfl,
    List.drop_left' (by decide : (cs "Trial: n=").length = 9),
    show cs ", m=" ++ X = ',' :: (cs " m=" ++ X) from rfl,
    takeWhile_prefix_eq _ _ (fun x hx => pyNatStr_isDigit k x hx) (by decide),
    parseDigits_pyNatStr]

/-- C8: appending exactly 3 trials sequentially to a fresh (missing) ledger
yields a file whose first line reads `"N: 3"` and which contains exactly 3
trial blocks in append order, with headers `Trial: n=1`, `n=2`, `n=3`
strictly increasing. -/
theorem C8_three_trials (r1 r2 r3 : RecordingData)
    (h1 : cleanRec r1) (h2 : cleanRec r2) (h3 : cleanRec r3) :
    ∃ F, runLedger [r1, r2, r3] = .ok F ∧
      line0 F = cs "N: 3" ∧
      (trialHeaders F).map headerNum = [1, 2, 3] := by
  have hrun : runLedger [r1, r2, r3] =
      .ok ((cs "N: " ++ pyNatStr 3) ++ '\n' ::
        ((result_text r1 1 ++ result_text r2 2) ++ result_text r3 3)) := by
    rw [runLedger, List.foldl_cons,
      show ledgerStep (.ok []) r1 = save_results r1 [] from rfl,
      save_results_empty, List.foldl_cons,
      show ∀ c, ledgerStep (.ok c) r2 = save_results r2 c from fun _ => rfl,
      save_results_step_small r2 1 one_pos (by norm_num) _,
      show (1 : ℕ) + 1 = 2 from rfl, List.foldl_cons,
      show ∀ c, ledgerStep (.ok c) r3 = save_results r3 c from fun _ => rfl,
      save_results_step_small r3 2 (by norm_num) (by norm_num) _,
      show (2 : ℕ) + 1 = 3 from rfl, List.foldl_nil]
  refine ⟨_, hrun, ?_, ?_⟩
  · rw [line0_counter]
    decide
  · rw [trialHeaders,
      ledgerLines_append _ _
        (not_mem_append (by decide) (pyNatStr_not_newline 3)),
      List.append_assoc, ledgerLines_result_text r1 1 h1,
      ledgerLines_result_text r2 2 h2,
      show result_text r3 3 = result_text r3 3 ++ [] from
        (List.append_nil _).symm,
      ledgerLines_result_text r3 3 h3,
      show ledgerLines [] = [] from rfl]
    simp only [List.append_assoc]
    simp only [List.filter_cons,
      show ∀ X, (decide (List.take 9 (cs "Trial: n=" ++ X) =
          cs "Trial: n=")) = true from
        fun X => decide_eq_true (take9_header X),
      headerPred_ne "N: " 'N' _ rfl (by decide),
      show (decide (List.take 9 (cs "Results:") = cs "Trial: n=")) = false
        from by decide,
      headerPred_ne "\tCoefficients: " '\t' _ rfl (by decide),
      headerPred_ne "\tIntercepts: " '\t' _ rfl (by decide),
      headerPred_ne "\tR2: " '\t' _ rfl (by decide),
      headerPred_ne "\tMSE: " '\t' _ rfl (by decide),
      headerPred_ne "\tMAE: " '\t' _ rfl (by decide),
      headerPred_ne "\tFunction: " '\t' _ rfl (by decide),
      eq_self_iff_true, if_true, Bool.false_eq_true, if_false,
      List.filter_nil]
    rw [List.map_cons, List.map_cons, List.map_cons, List.map_nil,
      headerNum_eval, headerNum_eval, headerNum_eval]

/-- Witness for C8: three concrete appends of `rec0`. -/
theorem C8_three_trials_witness :
    ∃ F, runLedger [rec0, rec0, rec0] = .ok F ∧
      line0 F = cs "N: 3" ∧
      (trialHeaders F).map headerNum = [1, 2, 3] :=
  C8_three_trials rec0 rec0 rec0
    ⟨by decide, by decide, by decide, by decide, by decide, by decide⟩
    ⟨by decide, by decide, by decide, by decide, by decide, by decide⟩
    ⟨by decide, by decide, by decide, by decide, by decide, by decide⟩

set_option maxRecDepth 4096 in
/-- C3 (code bug, failing input k = 11): after 11 sequential appends the
first line happens to read `"N: 11"`, but the 11th appended block's header
is `"Trial: n=1"` (the counter was re-parsed from only the LAST character
`"N: 10"[-1] = '0'`), and a spurious `"N: 1"` line is appended mid-file —
the header sequence is `1..10, 1`, not `1..11` as the claim requires. -/
theorem C3_eleventh_append_breaks :
    (runLedger (List.replicate 11 rec0)).map
        (fun F => ((trialHeaders F).map headerNum, line0 F)) =
      .ok ([1, 2, 3, 4, 5, 6, 7, 8, 9, 10, 1], cs "N: 11") ∧
    ([1, 2, 3, 4, 5, 6, 7, 8, 9, 10, 1] : List Nat) ≠
      [1, 2, 3, 4, 5, 6, 7, 8, 9, 10, 11] :=
  ⟨by decide, by decide⟩

end AuditoryProcessing
